import Mathlib

/-!
Shallow embedding of the `dotenvx-deploy` CLI's scanning/parsing logic
(`src/lib/utils/detect.js`) and of the pure cores of the `rotate` and
`deploy` command handlers (`src/lib/commands/rotate.js`,
`src/lib/commands/deploy.js`).

File contents are modelled as `List Char` (JS strings are sequences of
characters; all inputs involved are ASCII).  A directory is a list of
entries `(fileName, Option content)`, where `none` means reading that
file throws; a directory whose listing itself cannot be read is
modelled as `none : Option Dir`.

The JS regexes are embedded as deterministic matchers; each embedding
is justified next to its definition by an analysis of the regex's
backtracking behaviour (each pattern is of the "maximal run of a
character class followed by a literal" form, for which greedy matching
with backtracking coincides with maximal-munch).
-/

namespace DotenvxDeploy

/-- JS `\w` character class: `[A-Za-z0-9_]` (ASCII). -/
def wordChar (c : Char) : Bool :=
  c.isAlpha || c.isDigit || c == '_'

/-- First character of `[A-Z_]` with the `i` flag: `[A-Za-z_]`. -/
def idStartChar (c : Char) : Bool :=
  c.isAlpha || c == '_'

/-- JS `String.prototype.includes`: `pat` occurs as a contiguous substring. -/
def includesSub (l pat : List Char) : Bool :=
  pat.isPrefixOf l ||
    match l with
    | [] => false
    | _ :: tl => includesSub tl pat

/-- JS `String.prototype.split('\n')`. -/
def splitLines : List Char → List (List Char)
  | [] => [[]]
  | c :: cs =>
    if c == '\n' then [] :: splitLines cs
    else
      match splitLines cs with
      | [] => [[c]]
      | l :: ls => (c :: l) :: ls

/-- JS `Array.prototype.join('\n')` on a list of lines. -/
def joinLines : List (List Char) → List Char
  | [] => []
  | [l] => l
  | l :: ls => l ++ '\n' :: joinLines ls

/-- JS `String.prototype.replace(pat, rep)` with a string pattern:
replaces the first occurrence of `pat` only (identity when absent). -/
def replaceFirst (l pat rep : List Char) : List Char :=
  match l with
  | [] => if pat.isPrefixOf ([] : List Char) then rep else []
  | c :: cs =>
    if pat.isPrefixOf (c :: cs) then rep ++ (c :: cs).drop pat.length
    else c :: replaceFirst cs pat rep

/-! ## Key store parser (`getEnvKeys`, detect.js lines 217-239) -/

/-- The literal head of the key-line pattern `DOTENV_PRIVATE_KEY_\w+`. -/
def privateKeyHead : List Char := "DOTENV_PRIVATE_KEY_".data

/-- Embedding of the value part `"?([^"]+)"?$` of the key-line regex:
an optional opening quote, a nonempty run of non-quote characters
(the capture), an optional closing quote, then end of line.  Greedy
matching with backtracking succeeds exactly when stripping at most one
leading and at most one trailing quote leaves a nonempty quote-free
core, which is the capture. -/
def matchValuePart (rest : List Char) : Option (List Char) :=
  let r1 := if rest.head? == some '"' then rest.tail else rest
  let r2 := if r1.getLast? == some '"' then r1.dropLast else r1
  if r2.isEmpty || r2.contains '"' then none else some r2

/-- Embedding of the key-line regex
`/^(DOTENV_PRIVATE_KEY_\w+)="?([^"]+)"?$/` (detect.js line 229):
returns `(capturedName, capturedValue)` on a match.  Since `=` is not a
`\w` character, the greedy `\w+` matches exactly the maximal run of
word characters after the literal head, which must be nonempty and be
followed by `=`. -/
def matchKeyLine (line : List Char) : Option (List Char × List Char) :=
  if privateKeyHead.isPrefixOf line then
    let afterHead := line.drop privateKeyHead.length
    let w := afterHead.takeWhile wordChar
    if w.isEmpty then none
    else
      match afterHead.dropWhile wordChar with
      | '=' :: value =>
        match matchValuePart value with
        | some v => some (privateKeyHead ++ w, v)
        | none => none
      | _ => none
  else none

/-- JS object assignment `keys[k] = v` on an association list:
overwrite an existing binding in place, otherwise append. -/
def insertKey (m : List (String × String)) (k v : String) : List (String × String) :=
  if m.any (fun p => p.1 == k) then
    m.map (fun p => if p.1 == k then (k, v) else p)
  else m ++ [(k, v)]

/-- Association-list lookup (JS `keys[name]`). -/
def lookupKey (m : List (String × String)) (k : String) : Option String :=
  (m.find? (fun p => p.1 == k)).map (fun p => p.2)

/-- Parsing the content of `.env.keys` (the loop of `getEnvKeys`,
detect.js lines 227-233): split on newlines, and for every line
matching the key-line regex, store capture 1 ↦ capture 2. -/
def parseEnvKeys (content : List Char) : List (String × String) :=
  (splitLines content).foldl
    (fun m line =>
      match matchKeyLine line with
      | some (k, v) => insertKey m (String.mk k) (String.mk v)
      | none => m)
    []

/-! ## Directory model -/

/-- A directory entry: file name and content; `none` content means
`readFileSync` throws for that file. -/
abbrev DirEntry := String × Option (List Char)

/-- A readable directory listing. -/
abbrev Dir := List DirEntry

/-- `existsSync` + `readFileSync` for one file of a directory. -/
def lookupFile (d : Dir) (name : String) : Option (Option (List Char)) :=
  (d.find? (fun e => e.1 == name)).map (fun e => e.2)

/-- `getEnvKeys` (detect.js lines 217-239): if `.env.keys` is absent,
`{ exists: false, keys: {} }`; if reading it throws, the `catch`
returns the same; otherwise parse the content. -/
def getEnvKeys (d : Dir) : Bool × List (String × String) :=
  match lookupFile d ".env.keys" with
  | none => (false, [])
  | some none => (false, [])
  | some (some content) => (true, parseEnvKeys content)

/-! ## File scanner (`findAllEnvFiles`, detect.js lines 165-210) -/

/-- The name filter of `findAllEnvFiles` (detect.js lines 168-174):
starts with `.env`, does not end with `.keys`, `.example` or
`.sample`, and does not contain `.backup`. -/
def keepEnvFileName (f : String) : Bool :=
  ".env".data.isPrefixOf f.data &&
  !(".keys".data.isSuffixOf f.data) &&
  !(includesSub f.data ".backup".data) &&
  !(".example".data.isSuffixOf f.data) &&
  !(".sample".data.isSuffixOf f.data)

/-- Encryption classification (detect.js line 181): the content
contains `encrypted:` or `DOTENV_PUBLIC_KEY` as a substring. -/
def isEncryptedContent (content : List Char) : Bool :=
  includesSub content "encrypted:".data ||
  includesSub content "DOTENV_PUBLIC_KEY".data

/-- Embedding of the variable-line regex `/^([A-Z_][A-Z0-9_]*)=/i`
(detect.js line 186).  With the `i` flag the first character class is
`[A-Za-z_]` and the starred class is `[A-Za-z0-9_]` (= `\w`); since
`=` is not a word character, the greedy star matches exactly the
maximal word run, which must be followed by `=`. -/
def matchVarLine (line : List Char) : Option (List Char) :=
  match line with
  | [] => none
  | c :: _ =>
    if idStartChar c then
      match line.dropWhile wordChar with
      | '=' :: _ => some (line.takeWhile wordChar)
      | _ => none
    else none

/-- Contribution of one line to the variable list (detect.js lines
186-189): the captured identifier unless it starts with `DOTENV_`. -/
def lineVars (line : List Char) : List String :=
  match matchVarLine line with
  | some id => if "DOTENV_".data.isPrefixOf id then [] else [String.mk id]
  | none => []

/-- The variable-extraction loop of `findAllEnvFiles` (detect.js lines
184-190). -/
def extractVars (content : List Char) : List String :=
  (splitLines content).foldl (fun acc line => acc ++ lineVars line) []

/-- Environment-name derivation (detect.js lines 192-196):
`file.replace('.env.', '').replace('.env', 'root')`, overridden to
`root` when the file is exactly `.env`.  JS `replace` with a string
pattern rewrites only the first occurrence. -/
def envNameOfFile (file : String) : String :=
  let n := String.mk (replaceFirst (replaceFirst file.data ".env.".data []) ".env".data "root".data)
  if file == ".env" then "root" else n

/-- One scanner record (detect.js lines 198-205).  The `path` field
(`join(cwd, file)`) is a platform-dependent recombination of the
directory and the file name and is omitted. -/
structure EnvFileRecord where
  file : String
  name : String
  isEncrypted : Bool
  varCount : Nat
  -- the source names this field `variables`, a reserved word in Lean
  varNames : List String
deriving Repr, DecidableEq

/-- Building the record for one readable file (detect.js lines 176-205). -/
def mkEnvFileRecord (file : String) (content : List Char) : EnvFileRecord :=
  let vars := extractVars content
  { file := file
    name := envNameOfFile file
    isEncrypted := isEncryptedContent content
    varCount := vars.length
    varNames := vars }

/-- Reading the contents of the matched files in listing order; the
first file whose read throws aborts the whole `map` (the `try` block of
`findAllEnvFiles` wraps the entire loop). -/
def readAll : List DirEntry → Option (List (String × List Char))
  | [] => some []
  | (_, none) :: _ => none
  | (n, some c) :: rest => (readAll rest).map (fun l => (n, c) :: l)

/-- `findAllEnvFiles` (detect.js lines 165-210): `none` for the
directory means `readdirSync` throws; any failure inside the `try`
block (unreadable directory or unreadable matched file) is caught and
yields `[]`. -/
def findAllEnvFiles : Option Dir → List EnvFileRecord
  | none => []
  | some entries =>
    let envFiles := entries.filter (fun e => keepEnvFileName e.1)
    match readAll envFiles with
    | none => []
    | some l => l.map (fun p => mkEnvFileRecord p.1 p.2)

/-! ## Rotate command core (`rotateCommand`, rotate.js) -/

/-- JS `String.prototype.toUpperCase` (ASCII range, which covers every
character class involved here): upper-case each character. -/
def jsToUpper (s : String) : String :=
  String.mk (s.data.map Char.toUpper)

/-- The private-key name derived from an environment name
(rotate.js line 124 and deploy.js line 209):
`DOTENV_PRIVATE_KEY_` + the upper-cased environment name. -/
def privateKeyNameOf (env : String) : String :=
  "DOTENV_PRIVATE_KEY_" ++ jsToUpper env

/-- The key-store rewrite of the rotate flow (rotate.js lines 127-130):
split the key-store content on newlines and drop every line that
contains the private-key name as a substring. -/
def rotateStripLines (keysContent : List Char) (privateKeyName : List Char) : List (List Char) :=
  (splitLines keysContent).filter (fun line => !includesSub line privateKeyName)

/-- The full rewritten key-store content (`.join('\n')`, rotate.js line 130). -/
def rotateStripContent (keysContent : List Char) (privateKeyName : List Char) : List Char :=
  joinLines (rotateStripLines keysContent privateKeyName)

/-! ## Deploy command core (`deployCommand`, deploy.js) -/

/-- The key looked up by the deploy flow (deploy.js lines 208-210). -/
def deployLookup (keys : List (String × String)) (envName : String) : Option String :=
  lookupKey keys (privateKeyNameOf envName)

/-- Mapping of the logical environment name to the Vercel deployment
scope (deploy.js lines 254-259). -/
def vercelEnvScope (envName : String) : String :=
  if envName == "preview" || envName == "staging" then "preview"
  else if envName == "development" then "development"
  else "production"

/-- One remote Vercel environment variable. -/
structure RemoteVar where
  name : String
  scope : String
  value : String
deriving Repr, DecidableEq

/-- The text listing produced by `vercel env ls`: it contains every
remote variable's name (deploy.js line 262 checks the key name against
this text with `String.prototype.includes`). -/
def envLsOutput (remote : List RemoteVar) : List Char :=
  joinLines (remote.map (fun v => v.name.data))

/-- The remote-state mutation of the deploy flow (deploy.js lines
261-273): if the `env ls` listing contains the key name, run
`env rm <name> <scope>` (silently, so removing an absent variable is a
no-op), then `env add <name> <scope>` with the new value. -/
def deployEnvStep (remote : List RemoteVar) (keyName scope value : String) : List RemoteVar :=
  let afterRm :=
    if includesSub (envLsOutput remote) keyName.data then
      remote.filter (fun v => !(v.name == keyName && v.scope == scope))
    else remote
  afterRm ++ [⟨keyName, scope, value⟩]

/-- The deploy flow's remote mutation for a logical environment name
(key name and scope both derived from it, deploy.js lines 208-273). -/
def deployEnvForEnvName (remote : List RemoteVar) (envName value : String) : List RemoteVar :=
  deployEnvStep remote (privateKeyNameOf envName) (vercelEnvScope envName) value

/-! ## Lemmas about the embedded string operations -/

theorem includesSub_iff {l pat : List Char} :
    includesSub l pat = true ↔ pat <:+: l := by
  induction l with
  | nil =>
    simp [includesSub, List.isPrefixOf_iff_prefix]
  | cons c tl ih =>
    rw [includesSub]
    simp [List.isPrefixOf_iff_prefix, ih, List.infix_cons_iff]

theorem includesSub_eq_false_iff {l pat : List Char} :
    includesSub l pat = false ↔ ¬ pat <:+: l := by
  rw [← includesSub_iff]
  cases includesSub l pat <;> simp

theorem infix_joinLines {x : List Char} {ls : List (List Char)} (hx : x ∈ ls) :
    x <:+: joinLines ls := by
  induction ls with
  | nil => cases hx
  | cons l ls ih =>
    cases ls with
    | nil =>
      rw [List.mem_singleton] at hx
      subst hx
      exact List.infix_refl x
    | cons m ms =>
      have hj : joinLines (l :: m :: ms) = l ++ '\n' :: joinLines (m :: ms) := rfl
      rcases List.mem_cons.mp hx with h | h
      · subst h
        rw [hj]
        exact (List.prefix_append x ('\n' :: joinLines (m :: ms))).isInfix
      · rw [hj]
        exact (ih h).trans
          ((List.suffix_cons '\n' (joinLines (m :: ms))).trans
            (List.suffix_append l ('\n' :: joinLines (m :: ms)))).isInfix

theorem splitLines_no_newline {l : List Char} (h : '\n' ∉ l) :
    splitLines l = [l] := by
  induction l with
  | nil => rfl
  | cons c cs ih =>
    have hc : (c == '\n') = false := by
      rw [beq_eq_false_iff_ne]
      intro hcc
      exact h (by rw [hcc]; exact List.mem_cons_self '\n' cs)
    have hcs : splitLines cs = [cs] := ih (fun hm => h (List.mem_cons_of_mem c hm))
    rw [splitLines, if_neg (by simp [hc]), hcs]

theorem splitLines_append_newline {l rest : List Char} (h : '\n' ∉ l) :
    splitLines (l ++ '\n' :: rest) = l :: splitLines rest := by
  induction l with
  | nil => simp [splitLines]
  | cons c cs ih =>
    have hc : (c == '\n') = false := by
      rw [beq_eq_false_iff_ne]
      intro hcc
      exact h (by rw [hcc]; exact List.mem_cons_self '\n' cs)
    have hcs := ih (fun hm => h (List.mem_cons_of_mem c hm))
    rw [List.cons_append, splitLines, if_neg (by simp [hc]), hcs]

theorem splitLines_joinLines {ls : List (List Char)} (hne : ls ≠ [])
    (h : ∀ l ∈ ls, '\n' ∉ l) :
    splitLines (joinLines ls) = ls := by
  induction ls with
  | nil => cases hne rfl
  | cons l ls ih =>
    cases ls with
    | nil =>
      rw [joinLines]
      exact splitLines_no_newline (h l (List.mem_singleton_self l))
    | cons m ms =>
      have hrec : splitLines (joinLines (m :: ms)) = m :: ms :=
        ih (List.cons_ne_nil m ms) (fun x hx => h x (List.mem_cons_of_mem l hx))
      have hj : joinLines (l :: m :: ms) = l ++ '\n' :: joinLines (m :: ms) := rfl
      rw [hj, splitLines_append_newline (h l (List.mem_cons_self l _)), hrec]

theorem replaceFirst_head (pat rest rep : List Char) :
    replaceFirst (pat ++ rest) pat rep = rep ++ rest := by
  have hpre : pat.isPrefixOf (pat ++ rest) = true :=
    List.isPrefixOf_iff_prefix.mpr (List.prefix_append pat rest)
  cases e : pat ++ rest with
  | nil =>
    rcases List.append_eq_nil.mp e with ⟨hp, hr⟩
    subst hp
    subst hr
    simp [replaceFirst, List.isPrefixOf]
  | cons c cs =>
    rw [e] at hpre
    rw [replaceFirst, if_pos hpre, ← e, List.drop_left]

theorem replaceFirst_not_found {l pat : List Char} (rep : List Char)
    (h : includesSub l pat = false) : replaceFirst l pat rep = l := by
  induction l with
  | nil =>
    rw [includesSub] at h
    simp only [Bool.or_false] at h
    simp [replaceFirst, h]
  | cons c cs ih =>
    rw [includesSub] at h
    simp only [Bool.or_eq_false_iff] at h
    rw [replaceFirst, if_neg (by simp [h.1]), ih h.2]

theorem takeWhile_append_stop {p : Char → Bool} {xs ys : List Char} {y : Char}
    (hxs : ∀ c ∈ xs, p c = true) (hy : p y = false) :
    (xs ++ y :: ys).takeWhile p = xs := by
  induction xs with
  | nil => simp [List.takeWhile_cons, hy]
  | cons a as ih =>
    rw [List.cons_append, List.takeWhile_cons,
      if_pos (hxs a (List.mem_cons_self a as)),
      ih (fun c hc => hxs c (List.mem_cons_of_mem a hc))]

theorem dropWhile_append_stop {p : Char → Bool} {xs ys : List Char} {y : Char}
    (hxs : ∀ c ∈ xs, p c = true) (hy : p y = false) :
    (xs ++ y :: ys).dropWhile p = y :: ys := by
  induction xs with
  | nil => simp [List.dropWhile_cons, hy]
  | cons a as ih =>
    rw [List.cons_append, List.dropWhile_cons,
      if_pos (hxs a (List.mem_cons_self a as)),
      ih (fun c hc => hxs c (List.mem_cons_of_mem a hc))]

/-! ## Lemmas about the scanner and the key-store parser -/

theorem readAll_eq_none {l : List DirEntry} {e : DirEntry}
    (he : e ∈ l) (h2 : e.2 = none) : readAll l = none := by
  induction l with
  | nil => cases he
  | cons a asl ih =>
    obtain ⟨n, c⟩ := a
    rcases List.mem_cons.mp he with h | h
    · rw [h] at h2
      have hc : c = none := h2
      subst hc
      rfl
    · cases c with
      | none => rfl
      | some cc =>
        rw [readAll, ih h]
        rfl

theorem find?_overwrite (m : List (String × String)) (k v : String)
    (hm : m.any (fun p => p.1 == k) = true) :
    (m.map (fun p => if p.1 == k then (k, v) else p)).find? (fun p => p.1 == k)
      = some (k, v) := by
  induction m with
  | nil => cases hm
  | cons a am ih =>
    rw [List.map_cons]
    by_cases ha : (a.1 == k) = true
    · rw [if_pos ha]
      exact List.find?_cons_of_pos _ (by simp)
    · have hm2 : am.any (fun p => p.1 == k) = true := by
        have hm' : (a.1 == k) = true ∨ am.any (fun p => p.1 == k) = true := by
          simpa using hm
        rcases hm' with h | h
        · exact absurd h ha
        · exact h
      have hstep :
          List.find? (fun p => p.1 == k)
              (a :: am.map (fun p => if p.1 == k then (k, v) else p))
            = List.find? (fun p => p.1 == k)
                (am.map (fun p => if p.1 == k then (k, v) else p)) :=
        List.find?_cons_of_neg _ ha
      rw [if_neg ha, hstep]
      exact ih hm2

theorem find?_append_last (m : List (String × String)) (k v : String)
    (hm : m.any (fun p => p.1 == k) = false) :
    (m ++ [(k, v)]).find? (fun p => p.1 == k) = some (k, v) := by
  induction m with
  | nil =>
    rw [List.nil_append]
    exact List.find?_cons_of_pos _ (by simp)
  | cons a am ih =>
    have hm' : (a.1 == k) = false ∧ am.any (fun p => p.1 == k) = false := by
      simpa [Bool.or_eq_false_iff] using hm
    have hstep :
        List.find? (fun p => p.1 == k) (a :: (am ++ [(k, v)]))
          = List.find? (fun p => p.1 == k) (am ++ [(k, v)]) :=
      List.find?_cons_of_neg _ (by simp [hm'.1])
    rw [List.cons_append, hstep]
    exact ih hm'.2

theorem lookupKey_insertKey_same (m : List (String × String)) (k v : String) :
    lookupKey (insertKey m k v) k = some v := by
  unfold insertKey
  by_cases hm : m.any (fun p => p.1 == k) = true
  · rw [if_pos hm, lookupKey, find?_overwrite m k v hm]
    rfl
  · simp only [Bool.not_eq_true] at hm
    rw [if_neg (by simp [hm]), lookupKey, find?_append_last m k v hm]
    rfl

theorem find?_overwrite_ne (m : List (String × String)) (k k' v : String)
    (hkk : (k' == k) = false) :
    (m.map (fun p => if p.1 == k' then (k', v) else p)).find? (fun p => p.1 == k)
      = m.find? (fun p => p.1 == k) := by
  induction m with
  | nil => rfl
  | cons a am ih =>
    rw [List.map_cons]
    by_cases ha : (a.1 == k') = true
    · have ha1 : a.1 = k' := by simpa using ha
      have hak : (a.1 == k) = false := by rw [ha1]; exact hkk
      have hstep1 :
          List.find? (fun p => p.1 == k)
              ((k', v) :: am.map (fun p => if p.1 == k' then (k', v) else p))
            = List.find? (fun p => p.1 == k)
                (am.map (fun p => if p.1 == k' then (k', v) else p)) :=
        List.find?_cons_of_neg _ (by simp [hkk])
      have hstep2 :
          List.find? (fun p => p.1 == k) (a :: am)
            = List.find? (fun p => p.1 == k) am :=
        List.find?_cons_of_neg _ (by simp [hak])
      rw [if_pos ha, hstep1, hstep2]
      exact ih
    · by_cases hat : (a.1 == k) = true
      · have hstep1 :
            List.find? (fun p => p.1 == k)
                (a :: am.map (fun p => if p.1 == k' then (k', v) else p))
              = some a :=
          List.find?_cons_of_pos _ hat
        have hstep2 :
            List.find? (fun p => p.1 == k) (a :: am) = some a :=
          List.find?_cons_of_pos _ hat
        rw [if_neg ha, hstep1, hstep2]
      · have hstep1 :
            List.find? (fun p => p.1 == k)
                (a :: am.map (fun p => if p.1 == k' then (k', v) else p))
              = List.find? (fun p => p.1 == k)
                  (am.map (fun p => if p.1 == k' then (k', v) else p)) :=
          List.find?_cons_of_neg _ hat
        have hstep2 :
            List.find? (fun p => p.1 == k) (a :: am)
              = List.find? (fun p => p.1 == k) am :=
          List.find?_cons_of_neg _ hat
        rw [if_neg ha, hstep1, hstep2]
        exact ih

theorem find?_append_singleton_ne (m : List (String × String)) (k k' v : String)
    (hkk : (k' == k) = false) :
    (m ++ [(k', v)]).find? (fun p => p.1 == k) = m.find? (fun p => p.1 == k) := by
  induction m with
  | nil =>
    have hstep :
        List.find? (fun p => p.1 == k) ((k', v) :: ([] : List (String × String)))
          = List.find? (fun p => p.1 == k) ([] : List (String × String)) :=
      List.find?_cons_of_neg _ (by simp [hkk])
    rw [List.nil_append, hstep]
  | cons a am ih =>
    by_cases hat : (a.1 == k) = true
    · have hstep1 :
          List.find? (fun p => p.1 == k) (a :: (am ++ [(k', v)])) = some a :=
        List.find?_cons_of_pos _ hat
      have hstep2 :
          List.find? (fun p => p.1 == k) (a :: am) = some a :=
        List.find?_cons_of_pos _ hat
      rw [List.cons_append, hstep1, hstep2]
    · have hstep1 :
          List.find? (fun p => p.1 == k) (a :: (am ++ [(k', v)]))
            = List.find? (fun p => p.1 == k) (am ++ [(k', v)]) :=
        List.find?_cons_of_neg _ hat
      have hstep2 :
          List.find? (fun p => p.1 == k) (a :: am)
            = List.find? (fun p => p.1 == k) am :=
        List.find?_cons_of_neg _ hat
      rw [List.cons_append, hstep1, hstep2]
      exact ih

theorem lookupKey_insertKey_ne (m : List (String × String)) (k k' v : String)
    (h : k' ≠ k) : lookupKey (insertKey m k' v) k = lookupKey m k := by
  have hkk : (k' == k) = false := beq_eq_false_iff_ne.mpr h
  unfold insertKey
  by_cases hm : m.any (fun p => p.1 == k') = true
  · rw [if_pos hm, lookupKey, find?_overwrite_ne m k k' v hkk]
    rfl
  · rw [if_neg hm, lookupKey, find?_append_singleton_ne m k k' v hkk]
    rfl

theorem isPrefixOf_append_self (l t : List Char) :
    l.isPrefixOf (l ++ t) = true :=
  List.isPrefixOf_iff_prefix.mpr (List.prefix_append l t)

theorem matchValuePart_quoted {v : List Char}
    (hv1 : v ≠ []) (hv2 : v.contains '"' = false) :
    matchValuePart ('"' :: (v ++ ['"'])) = some v := by
  have h4 : v.isEmpty = false := by
    cases v with
    | nil => cases hv1 rfl
    | cons a l => rfl
  have h5 : '"' ∉ v := by simpa using hv2
  simp [matchValuePart, List.getLast?_concat, h4, h5]

theorem matchKeyLine_wellFormed {E v : List Char}
    (hE1 : E ≠ []) (hE2 : E.all wordChar = true)
    (hv1 : v ≠ []) (hv2 : v.contains '"' = false) :
    matchKeyLine (privateKeyHead ++ (E ++ '=' :: '"' :: (v ++ ['"'])))
      = some (privateKeyHead ++ E, v) := by
  have hEw : ∀ c ∈ E, wordChar c = true := fun c hc =>
    List.all_eq_true.mp hE2 c hc
  have htake : (E ++ '=' :: '"' :: (v ++ ['"'])).takeWhile wordChar = E :=
    takeWhile_append_stop hEw (by decide)
  have hdrop : (E ++ '=' :: '"' :: (v ++ ['"'])).dropWhile wordChar
      = '=' :: '"' :: (v ++ ['"']) :=
    dropWhile_append_stop hEw (by decide)
  have hEempty : E.isEmpty = false := by
    cases E with
    | nil => cases hE1 rfl
    | cons a l => rfl
  unfold matchKeyLine
  rw [if_pos (isPrefixOf_append_self privateKeyHead _)]
  simp only [List.drop_left, htake, hdrop, hEempty]
  rw [if_neg (by simp)]
  rw [matchValuePart_quoted hv1 hv2]

theorem matchKeyLine_key_infix {line k v : List Char}
    (h : matchKeyLine line = some (k, v)) : includesSub line k = true := by
  unfold matchKeyLine at h
  split at h
  case isTrue hp =>
    obtain ⟨t, ht⟩ := List.isPrefixOf_iff_prefix.mp hp
    dsimp only at h
    split at h
    · cases h
    · split at h
      · split at h
        · injection h with h'
          have hk : k = privateKeyHead ++ (line.drop privateKeyHead.length).takeWhile wordChar :=
            (congrArg Prod.fst h').symm
          have hdrop : line.drop privateKeyHead.length = t := by
            rw [← ht, List.drop_left]
          rw [hdrop] at hk
          have hw : List.takeWhile wordChar t <+: t := List.takeWhile_prefix wordChar
          obtain ⟨r, hr⟩ := hw
          apply includesSub_iff.mpr
          apply List.IsPrefix.isInfix
          exact ⟨r, by rw [hk, List.append_assoc, hr, ht]⟩
        · cases h
      · cases h
  case isFalse hp =>
    cases h
/-- Folding the key-store parsing step over lines none of which
contains `K` as a substring leaves the binding of `K` unchanged. -/
theorem foldl_keyStep_lookup_unchanged {ls : List (List Char)}
    (m : List (String × String)) {K : String}
    (h : ∀ l ∈ ls, includesSub l K.data = false) :
    lookupKey
      (ls.foldl
        (fun m line =>
          match matchKeyLine line with
          | some (k, v) => insertKey m (String.mk k) (String.mk v)
          | none => m)
        m) K
      = lookupKey m K := by
  induction ls generalizing m with
  | nil => rfl
  | cons l ls ih =>
    rw [List.foldl_cons]
    rcases e : matchKeyLine l with _ | ⟨k, v⟩
    · rw [ih _ (fun x hx => h x (List.mem_cons_of_mem l hx))]
    · have hne : String.mk k ≠ K := by
        intro hkK
        have hkd : k = K.data := congrArg String.data hkK
        have : includesSub l K.data = true := hkd ▸ matchKeyLine_key_infix e
        rw [h l (List.mem_cons_self l ls)] at this
        cases this
      rw [ih _ (fun x hx => h x (List.mem_cons_of_mem l hx)),
        lookupKey_insertKey_ne _ _ _ _ hne]

/-- A remote variable's name always appears in the `env ls` listing. -/
theorem name_includes_envLs {remote : List RemoteVar} {w : RemoteVar}
    (h : w ∈ remote) :
    includesSub (envLsOutput remote) w.name.data = true :=
  includesSub_iff.mpr (infix_joinLines (List.mem_map.mpr ⟨w, h, rfl⟩))

/-- Core of the deploy idempotence argument: the remove-then-add
mutation is idempotent for a fixed key name, scope and value. -/
theorem deployEnvStep_idem (remote : List RemoteVar) (k s val : String) :
    deployEnvStep (deployEnvStep remote k s val) k s val
      = deployEnvStep remote k s val := by
  have hkv : (⟨k, s, val⟩ : RemoteVar) ∈ deployEnvStep remote k s val := by
    unfold deployEnvStep
    exact List.mem_append_right _ (List.mem_singleton_self _)
  have hinc : includesSub (envLsOutput (deployEnvStep remote k s val)) k.data = true :=
    name_includes_envLs hkv
  conv_lhs => rw [deployEnvStep]
  rw [if_pos hinc]
  unfold deployEnvStep
  rw [List.filter_append]
  have hlast : List.filter (fun v => !(v.name == k && v.scope == s))
      [(⟨k, s, val⟩ : RemoteVar)] = [] := by simp
  rw [hlast, List.append_nil]
  congr 1
  by_cases hc : includesSub (envLsOutput remote) k.data = true
  · rw [if_pos hc, List.filter_filter]
    congr 1
    funext a
    exact Bool.and_self _
  · rw [if_neg hc]
    apply List.filter_eq_self.mpr
    intro w hw
    have hwk : w.name ≠ k := by
      intro hwk
      have h2 := name_includes_envLs hw
      rw [hwk] at h2
      exact hc h2
    simp [hwk]
/-! ## Claim theorems -/

/-- C1 counterexample: on a key store holding
`DOTENV_PRIVATE_KEY_PRODUCTION="abc"` and `DOTENV_PRIVATE_KEY="root"`,
the parser does NOT return an entry for the bare name
`DOTENV_PRIVATE_KEY` (the claim asserts both entries are present);
the suffixed entry is present with value `abc`. -/
theorem C1_keystore_counterexample :
    lookupKey
        (parseEnvKeys
          "DOTENV_PRIVATE_KEY_PRODUCTION=\"abc\"\nDOTENV_PRIVATE_KEY=\"root\"".data)
        "DOTENV_PRIVATE_KEY" = none ∧
    lookupKey
        (parseEnvKeys
          "DOTENV_PRIVATE_KEY_PRODUCTION=\"abc\"\nDOTENV_PRIVATE_KEY=\"root\"".data)
        "DOTENV_PRIVATE_KEY_PRODUCTION" = some "abc" := by
  constructor
  · decide
  · decide

/-- C1 (amended): on that key store the parser returns exactly the one
mapping `DOTENV_PRIVATE_KEY_PRODUCTION ↦ abc`; the bare
`DOTENV_PRIVATE_KEY` line is silently ignored, because the key-line
pattern `DOTENV_PRIVATE_KEY_\w+` requires a nonempty suffix after the
underscore. -/
theorem C1_keystore_parse_amended :
    parseEnvKeys
        "DOTENV_PRIVATE_KEY_PRODUCTION=\"abc\"\nDOTENV_PRIVATE_KEY=\"root\"".data
      = [("DOTENV_PRIVATE_KEY_PRODUCTION", "abc")] := by
  decide

/-- C3: the deploy flow's remote mutation is idempotent — deploying the
same environment with the same key value twice yields the same remote
variable set as deploying it once (remove-then-add semantics). -/
theorem C3_deploy_idempotent (remote : List RemoteVar) (envName value : String) :
    deployEnvForEnvName (deployEnvForEnvName remote envName value) envName value
      = deployEnvForEnvName remote envName value :=
  deployEnvStep_idem remote (privateKeyNameOf envName) (vercelEnvScope envName) value

/-- C5: the scanner marks a file encrypted exactly on the two literal
markers — any content containing the substring `DOTENV_PUBLIC_KEY="x"`
is marked encrypted, and any content containing neither `encrypted:`
nor `DOTENV_PUBLIC_KEY` anywhere is marked not encrypted. -/
theorem C5_encrypted_classification (f : String) (c : List Char) :
    (includesSub c "DOTENV_PUBLIC_KEY=\"x\"".data = true →
      (mkEnvFileRecord f c).isEncrypted = true) ∧
    (includesSub c "encrypted:".data = false →
     includesSub c "DOTENV_PUBLIC_KEY".data = false →
      (mkEnvFileRecord f c).isEncrypted = false) := by
  constructor
  · intro h
    have hmark : ("DOTENV_PUBLIC_KEY".data : List Char)
        <:+: "DOTENV_PUBLIC_KEY=\"x\"".data :=
      ⟨[], "=\"x\"".data, by decide⟩
    have h2 : includesSub c "DOTENV_PUBLIC_KEY".data = true :=
      includesSub_iff.mpr (hmark.trans (includesSub_iff.mp h))
    simp [mkEnvFileRecord, isEncryptedContent, h2]
  · intro h1 h2
    simp [mkEnvFileRecord, isEncryptedContent, h1, h2]

/-- Witness for C5 at concrete contents. -/
theorem C5_encrypted_classification_witness :
    (mkEnvFileRecord ".env.production"
        "DOTENV_PUBLIC_KEY=\"x\"\nA=\"1\"".data).isEncrypted = true ∧
    (mkEnvFileRecord ".env.staging" "A=1\nB=2".data).isEncrypted = false :=
  ⟨(C5_encrypted_classification ".env.production" _).1 (by decide),
   (C5_encrypted_classification ".env.staging" _).2 (by decide) (by decide)⟩

/-- C7: scanning never propagates a failure — an unreadable directory
listing yields `[]`, and an unreadable matched file makes the whole
scan yield `[]`. -/
theorem C7_scan_nonfatal :
    findAllEnvFiles none = [] ∧
    ∀ (d : Dir) (e : DirEntry), e ∈ d → keepEnvFileName e.1 = true →
      e.2 = none → findAllEnvFiles (some d) = [] := by
  refine ⟨rfl, ?_⟩
  intro d e he hk h2
  have hmem : e ∈ d.filter (fun x => keepEnvFileName x.1) :=
    List.mem_filter.mpr ⟨he, hk⟩
  have hra : readAll (d.filter (fun x => keepEnvFileName x.1)) = none :=
    readAll_eq_none hmem h2
  unfold findAllEnvFiles
  dsimp only
  rw [hra]

/-- Witness for C7: a directory whose only env file is unreadable. -/
theorem C7_scan_nonfatal_witness :
    findAllEnvFiles
        (some [((".env" : String), (none : Option (List Char)))]) = [] :=
  C7_scan_nonfatal.2 _ (".env", none) (by decide) (by decide) rfl

/-- C8: when no `.env.keys` entry exists in the directory, `getEnvKeys`
reports `exists = false` with an empty mapping. -/
theorem C8_keys_absent (d : Dir) (h : ∀ e ∈ d, e.1 ≠ ".env.keys") :
    getEnvKeys d = (false, []) := by
  have hf : lookupFile d ".env.keys" = none := by
    unfold lookupFile
    rw [List.find?_eq_none.mpr (fun e he => by simpa using h e he)]
    rfl
  rw [getEnvKeys, hf]

/-- Witness for C8: a directory without a key store. -/
theorem C8_keys_absent_witness :
    getEnvKeys [((".env" : String), some "A=1".data)] = (false, []) :=
  C8_keys_absent _ (by decide)

/-- C9: any environment name other than `preview`, `staging` and
`development` is mapped to the `production` deployment scope. -/
theorem C9_scope_default (e : String)
    (h1 : e ≠ "preview") (h2 : e ≠ "staging") (h3 : e ≠ "development") :
    vercelEnvScope e = "production" := by
  have b1 : (e == "preview") = false := beq_eq_false_iff_ne.mpr h1
  have b2 : (e == "staging") = false := beq_eq_false_iff_ne.mpr h2
  have b3 : (e == "development") = false := beq_eq_false_iff_ne.mpr h3
  unfold vercelEnvScope
  rw [b1, b2, b3]
  rfl

/-- Witness for C9: the custom name `local` lands in the production scope. -/
theorem C9_scope_default_witness : vercelEnvScope "local" = "production" :=
  C9_scope_default "local" (by decide) (by decide) (by decide)

/-- C10: when the `.env.keys` entry exists but reading it throws,
`getEnvKeys` reports `exists = false` with an empty mapping, exactly as
for an absent key store. -/
theorem C10_keys_unreadable (d : Dir)
    (h : lookupFile d ".env.keys" = some none) :
    getEnvKeys d = (false, []) := by
  rw [getEnvKeys, h]

/-- Witness for C10: a directory whose key store exists but cannot be read. -/
theorem C10_keys_unreadable_witness :
    getEnvKeys [((".env.keys" : String), (none : Option (List Char)))]
      = (false, []) :=
  C10_keys_unreadable _ rfl

/-- An identifier-start character (letter or underscore) is a word
character. -/
theorem wordChar_of_idStartChar {c : Char} (h : idStartChar c = true) :
    wordChar c = true := by
  unfold idStartChar at h
  unfold wordChar
  rcases (by simpa using h : c.isAlpha = true ∨ (c == '_') = true) with h1 | h1 <;>
    simp [h1]

/-- C6 counterexample: the variable pattern carries the `i` flag, so
the lowercase-leading line `foo=1` DOES contribute the variable name
`foo`, contradicting the claim that no lowercase-leading identifier
ever contributes. -/
theorem C6_var_pattern_counterexample :
    extractVars "foo=1".data = ["foo"] ∧ extractVars "foo=1".data ≠ [] := by
  constructor
  · decide
  · decide

/-- C6 (amended): the scanner's variable extraction accepts exactly
the lines starting with a case-INSENSITIVE identifier (letter or
underscore first, then letters, digits or underscores) immediately
followed by `=`, and among those excludes every captured name carrying
the literal (case-sensitive) `DOTENV_` head; a line whose first
character is not a letter or underscore never matches. -/
theorem C6_var_pattern_amended :
    (∀ (c : Char) (cs rest : List Char), idStartChar c = true →
        cs.all wordChar = true →
        matchVarLine ((c :: cs) ++ '=' :: rest) = some (c :: cs)) ∧
    (∀ (c : Char) (cs : List Char), idStartChar c = false →
        matchVarLine (c :: cs) = none) ∧
    (∀ (line ident : List Char), matchVarLine line = some ident →
        "DOTENV_".data.isPrefixOf ident = true → lineVars line = []) ∧
    (∀ (line ident : List Char), matchVarLine line = some ident →
        "DOTENV_".data.isPrefixOf ident = false →
        lineVars line = [String.mk ident]) := by
  refine ⟨?_, ?_, ?_, ?_⟩
  · intro c cs rest hc hcs
    have hw : ∀ x ∈ (c :: cs), wordChar x = true := by
      intro x hx
      rcases List.mem_cons.mp hx with h | h
      · subst h
        exact wordChar_of_idStartChar hc
      · exact List.all_eq_true.mp hcs x h
    have hdw : ((c :: cs) ++ '=' :: rest).dropWhile wordChar = '=' :: rest :=
      dropWhile_append_stop hw (by decide)
    have htw : ((c :: cs) ++ '=' :: rest).takeWhile wordChar = c :: cs :=
      takeWhile_append_stop hw (by decide)
    rw [List.cons_append] at hdw htw ⊢
    unfold matchVarLine
    dsimp only
    rw [if_pos hc, hdw, htw]
    rfl
  · intro c cs hc
    unfold matchVarLine
    dsimp only
    rw [if_neg (by simp [hc])]
  · intro line ident hm hd
    unfold lineVars
    rw [hm]
    dsimp only
    rw [if_pos hd]
  · intro line ident hm hd
    unfold lineVars
    rw [hm]
    dsimp only
    rw [if_neg (by simp [hd])]

/-- Witness for C6 (amended) at concrete lines. -/
theorem C6_var_pattern_amended_witness :
    matchVarLine (('f' :: "oo".data) ++ '=' :: "1".data) = some ('f' :: "oo".data) ∧
    matchVarLine ('1' :: "X=2".data) = none ∧
    lineVars "DOTENV_PUBLIC_KEY=zz".data = [] ∧
    lineVars "BAR=2".data = [String.mk "BAR".data] :=
  ⟨C6_var_pattern_amended.1 'f' "oo".data "1".data (by decide) (by decide),
   C6_var_pattern_amended.2.1 '1' "X=2".data (by decide),
   C6_var_pattern_amended.2.2.1 "DOTENV_PUBLIC_KEY=zz".data
     "DOTENV_PUBLIC_KEY".data (by decide) (by decide),
   C6_var_pattern_amended.2.2.2 "BAR=2".data "BAR".data (by decide) (by decide)⟩
/-- C4 counterexample: with `<name> = example` the file `.env.example`
matches the scanner's `.example` exclusion, so only `.env` is
returned, contradicting the claim that `.env.<name>` is returned for
every `<name>`. -/
theorem C4_scanner_counterexample :
    (findAllEnvFiles (some [((".env" : String), some "A=1".data),
        (".env.example", some "B=2".data), (".env.keys", some "".data),
        (".env.example.example", some "".data)])).map (fun r => r.file)
      = [".env"] ∧
    (findAllEnvFiles (some [((".env" : String), some "A=1".data),
        (".env.example", some "B=2".data), (".env.keys", some "".data),
        (".env.example.example", some "".data)])).map (fun r => r.file)
      ≠ [".env", ".env.example"] := by
  constructor
  · decide
  · decide

/-- C4 (amended): for every directory containing exactly `.env`,
`.env.<name>`, `.env.keys` and `.env.<name>.example`, provided
`.env.<name>` does not itself fall under the reserved exclusions
(ending in `.keys`, `.example` or `.sample`, or containing `.backup`),
the scanner returns records for exactly `.env` and `.env.<name>`. -/
theorem C4_scanner_amended (name : String) (c1 c2 c3 c4 : List Char)
    (h1 : ".keys".data.isSuffixOf (".env." ++ name).data = false)
    (h2 : includesSub (".env." ++ name).data ".backup".data = false)
    (h3 : ".example".data.isSuffixOf (".env." ++ name).data = false)
    (h4 : ".sample".data.isSuffixOf (".env." ++ name).data = false) :
    (findAllEnvFiles (some [(".env", some c1), (".env." ++ name, some c2),
        (".env.keys", some c3), (".env." ++ name ++ ".example", some c4)])).map
      (fun r => r.file)
      = [".env", ".env." ++ name] := by
  have hdata : (".env." ++ name).data = '.' :: 'e' :: 'n' :: 'v' :: '.' :: name.data := by
    rw [String.data_append]
    rfl
  have hpre : ".env".data.isPrefixOf (".env." ++ name).data = true := by
    rw [hdata]
    simp [List.isPrefixOf]
  have k1 : keepEnvFileName ".env" = true := by decide
  have k2 : keepEnvFileName (".env." ++ name) = true := by
    unfold keepEnvFileName
    rw [hpre, h1, h2, h3, h4]
    rfl
  have k3 : keepEnvFileName ".env.keys" = false := by decide
  have hsuf : ".example".data.isSuffixOf (".env." ++ name ++ ".example").data = true := by
    rw [String.data_append]
    exact List.isSuffixOf_iff_suffix.mpr (List.suffix_append _ _)
  have k4 : keepEnvFileName (".env." ++ name ++ ".example") = false := by
    unfold keepEnvFileName
    rw [hsuf]
    simp
  unfold findAllEnvFiles
  dsimp only
  rw [List.filter_cons, List.filter_cons, List.filter_cons, List.filter_cons,
    List.filter_nil]
  rw [k1, k2, k3, k4]
  rfl
/-- Witness for C4 (amended) at `<name> = production`. -/
theorem C4_scanner_amended_witness :
    (findAllEnvFiles (some [(".env", some "A=1".data),
        (".env." ++ "production", some "B=2".data),
        (".env.keys", some "".data),
        (".env." ++ "production" ++ ".example", some "".data)])).map
      (fun r => r.file)
      = [".env", ".env." ++ "production"] :=
  C4_scanner_amended "production" "A=1".data "B=2".data "".data "".data
    (by decide) (by decide) (by decide) (by decide)
theorem envNameOfFile_roundtrip (e : String)
    (heInc : includesSub e.data ".env".data = false) :
    envNameOfFile (".env." ++ e) = e := by
  have hdata : (".env." ++ e).data = ".env.".data ++ e.data := String.data_append _ _
  have hne : ((".env." ++ e) == ".env") = false := by
    apply beq_eq_false_iff_ne.mpr
    intro hc
    have hlen := congrArg (fun s => s.data.length) hc
    simp only [hdata, List.length_append] at hlen
    simp at hlen
    omega
  have hr1 : replaceFirst (".env." ++ e).data ".env.".data [] = e.data := by
    rw [hdata]
    have := replaceFirst_head ".env.".data e.data []
    simpa using this
  have hr2 : replaceFirst e.data ".env".data "root".data = e.data :=
    replaceFirst_not_found _ heInc
  unfold envNameOfFile
  rw [hne]
  dsimp only
  rw [hr1, hr2]
  rfl
theorem privateKeyNameOf_data (e : String) :
    (privateKeyNameOf e).data = privateKeyHead ++ (jsToUpper e).data := by
  unfold privateKeyNameOf privateKeyHead
  rw [String.data_append]

theorem newline_not_mem_privateKeyName {e : String}
    (hU : (jsToUpper e).data.all wordChar = true) :
    '\n' ∉ (privateKeyNameOf e).data := by
  rw [privateKeyNameOf_data]
  intro hm
  rcases List.mem_append.mp hm with h | h
  · exact absurd h (by decide)
  · exact absurd (List.all_eq_true.mp hU _ h) (by decide)

/-- The rotate rewrite on a key store whose only line containing the
key name is the key's own line removes exactly that line. -/
theorem rotateStrip_exact {K keyLine : List Char}
    (pre post : List (List Char))
    (hkey : includesSub keyLine K = true)
    (hnl : ∀ l ∈ pre ++ keyLine :: post, '\n' ∉ l)
    (hpre : ∀ l ∈ pre, includesSub l K = false)
    (hpost : ∀ l ∈ post, includesSub l K = false) :
    rotateStripLines (joinLines (pre ++ keyLine :: post)) K = pre ++ post := by
  unfold rotateStripLines
  rw [splitLines_joinLines (by simp) hnl]
  rw [List.filter_append, List.filter_cons]
  rw [if_neg (by simp [hkey])]
  rw [List.filter_eq_self.mpr (fun l hl => by simp [hpre l hl]),
    List.filter_eq_self.mpr (fun l hl => by simp [hpost l hl])]

/-- Parsing a key store that holds the quoted assignment line for the
environment's private key (and no other line containing that key name)
lets the deploy flow look up exactly that key's value. -/
theorem deployLookup_parse {e v : String} (pre post : List (List Char))
    (heU1 : (jsToUpper e).data ≠ [])
    (heU2 : (jsToUpper e).data.all wordChar = true)
    (hv1 : v.data ≠ []) (hv2 : v.data.contains '"' = false)
    (hnl : ∀ l ∈ pre ++ ((privateKeyNameOf e).data ++ '=' :: '"' ::
        (v.data ++ ['"'])) :: post, '\n' ∉ l)
    (hpost : ∀ l ∈ post, includesSub l (privateKeyNameOf e).data = false) :
    deployLookup
        (parseEnvKeys (joinLines (pre ++ ((privateKeyNameOf e).data ++
          '=' :: '"' :: (v.data ++ ['"'])) :: post)))
        e
      = some v := by
  have hml : matchKeyLine ((privateKeyNameOf e).data ++ '=' :: '"' ::
      (v.data ++ ['"'])) = some (privateKeyHead ++ (jsToUpper e).data, v.data) := by
    rw [privateKeyNameOf_data, List.append_assoc]
    exact matchKeyLine_wellFormed heU1 heU2 hv1 hv2
  unfold deployLookup parseEnvKeys
  rw [splitLines_joinLines (by simp) hnl]
  rw [List.foldl_append, List.foldl_cons]
  simp only [hml]
  have hmkK : String.mk (privateKeyHead ++ (jsToUpper e).data) = privateKeyNameOf e := by
    rw [← privateKeyNameOf_data]
  have hmkv : String.mk v.data = v := rfl
  rw [hmkK, hmkv]
  rw [foldl_keyStep_lookup_unchanged _ hpost]
  exact lookupKey_insertKey_same _ _ _
/-- C2 counterexample: rotating `staging` drops every key-store line
that CONTAINS `DOTENV_PRIVATE_KEY_STAGING` as a substring, not only
the line whose key name is exactly that: the line holding the distinct
key `DOTENV_PRIVATE_KEY_STAGING_OLD` is present in the key store but
is also removed, so the rewrite does not remove exactly one line. -/
theorem C2_roundtrip_counterexample :
    ("DOTENV_PRIVATE_KEY_STAGING_OLD=\"b\"".data ∈
        splitLines
          "DOTENV_PRIVATE_KEY_STAGING=\"a\"\nDOTENV_PRIVATE_KEY_STAGING_OLD=\"b\"".data) ∧
    rotateStripLines
        "DOTENV_PRIVATE_KEY_STAGING=\"a\"\nDOTENV_PRIVATE_KEY_STAGING_OLD=\"b\"".data
        (privateKeyNameOf "staging").data = [] := by
  constructor
  · decide
  · decide

/-- C2 (amended): for an environment name whose text does not contain
`.env` and whose upper-casing is a nonempty word-character identifier,
(a) the scanner derives the name back from `.env.<name>`;
(b) the rotate flow removes every key-store line containing
`DOTENV_PRIVATE_KEY_<NAME>` as a substring, hence exactly the key's
own assignment line when no other line contains the key name; and
(c) the deploy flow looks up exactly `DOTENV_PRIVATE_KEY_<NAME>` in
the parsed key store and finds that line's value. -/
theorem C2_roundtrip_amended (e v : String) (pre post : List (List Char))
    (heInc : includesSub e.data ".env".data = false)
    (heU1 : (jsToUpper e).data ≠ [])
    (heU2 : (jsToUpper e).data.all wordChar = true)
    (hv1 : v.data ≠ []) (hv2 : v.data.contains '"' = false)
    (hv3 : '\n' ∉ v.data)
    (hpre : ∀ l ∈ pre, includesSub l (privateKeyNameOf e).data = false ∧ '\n' ∉ l)
    (hpost : ∀ l ∈ post, includesSub l (privateKeyNameOf e).data = false ∧ '\n' ∉ l) :
    envNameOfFile (".env." ++ e) = e ∧
    rotateStripLines
        (joinLines (pre ++ ((privateKeyNameOf e).data ++ '=' :: '"' ::
          (v.data ++ ['"'])) :: post))
        (privateKeyNameOf e).data
      = pre ++ post ∧
    deployLookup
        (parseEnvKeys (joinLines (pre ++ ((privateKeyNameOf e).data ++
          '=' :: '"' :: (v.data ++ ['"'])) :: post)))
        e
      = some v := by
  have hnlK : '\n' ∉ ((privateKeyNameOf e).data ++ '=' :: '"' ::
      (v.data ++ ['"'])) := by
    intro hm
    rcases List.mem_append.mp hm with h | h
    · exact newline_not_mem_privateKeyName heU2 h
    · simp only [List.mem_cons, List.mem_append, List.mem_singleton] at h
      rcases h with h | h | h | h
      · exact absurd h (by decide)
      · exact absurd h (by decide)
      · exact hv3 h
      · exact absurd h (by decide)
  have hnl : ∀ l ∈ pre ++ ((privateKeyNameOf e).data ++ '=' :: '"' ::
      (v.data ++ ['"'])) :: post, '\n' ∉ l := by
    intro l hl
    rcases List.mem_append.mp hl with h | h
    · exact (hpre l h).2
    · rcases List.mem_cons.mp h with h | h
      · rw [h]
        exact hnlK
      · exact (hpost l h).2
  have hkey : includesSub ((privateKeyNameOf e).data ++ '=' :: '"' ::
      (v.data ++ ['"'])) (privateKeyNameOf e).data = true :=
    includesSub_iff.mpr (List.prefix_append _ _).isInfix
  exact ⟨envNameOfFile_roundtrip e heInc,
    rotateStrip_exact pre post hkey hnl
      (fun l hl => (hpre l hl).1) (fun l hl => (hpost l hl).1),
    deployLookup_parse pre post heU1 heU2 hv1 hv2 hnl
      (fun l hl => (hpost l hl).1)⟩

/-- Witness for C2 (amended) at `staging`, value `abc`, a leading
non-key line and a trailing `PRODUCTION` key line. -/
theorem C2_roundtrip_amended_witness :
    envNameOfFile (".env." ++ "staging") = "staging" ∧
    rotateStripLines
        (joinLines (["keys file".data] ++ ((privateKeyNameOf "staging").data ++
          '=' :: '"' :: ("abc".data ++ ['"'])) ::
          ["DOTENV_PRIVATE_KEY_PRODUCTION=\"p\"".data]))
        (privateKeyNameOf "staging").data
      = ["keys file".data] ++ ["DOTENV_PRIVATE_KEY_PRODUCTION=\"p\"".data] ∧
    deployLookup
        (parseEnvKeys (joinLines (["keys file".data] ++
          ((privateKeyNameOf "staging").data ++ '=' :: '"' ::
            ("abc".data ++ ['"'])) ::
          ["DOTENV_PRIVATE_KEY_PRODUCTION=\"p\"".data])))
        "staging"
      = some "abc" :=
  C2_roundtrip_amended "staging" "abc" ["keys file".data]
    ["DOTENV_PRIVATE_KEY_PRODUCTION=\"p\"".data] (by decide) (by decide)
    (by decide) (by decide) (by decide) (by decide) (by decide) (by decide)
end DotenvxDeploy
